import Mathlib

/-!
# TurboMul: GEMM kernels and matrix utilities

A shallow embedding of `matmul_naive.cpp` and `matmul_optimized.cpp`.

* A buffer (`T*`) is a `List`; every read and write is bounds-checked and an
  out-of-range access is a fault (`none`), standing for C++ undefined behaviour.
* `int` dimensions and loop counters are natural numbers: the kernels are only
  specified for non-negative dimensions, and index arithmetic is taken to be
  exact (no `int` overflow of `i * K + k`, `i0 + TILE_SIZE`, ...).
* Loops are run by `loop`, which tests the loop condition before every
  iteration exactly as the C `for` statement does.  It carries an iteration
  budget; exhausting the budget is a fault as well, so a result `some _`
  always stands for a run that finished normally.
* The element type of the templates is a parameter `Elem α` (zero, add, mul);
  no algebraic law is assumed of it.  Instances are `int32` (modulo `2^32`),
  `int32Checked` (overflow tracked), `int8` (narrowing after every addition) and
  the recording arithmetic `recElem`, whose values log the operations applied.
* The static `std::mt19937` of `randomize_matrix` is an explicit generator state
  passed in and out; the generator and the distribution are library code and
  enter as the parameter `draw`.

## Results

| claim | theorem | source |
|---|---|---|
| C1 | `matmul_naive_spec` | `matmul_naive` |
| C2 | `matmul_amadeus_spec` | `matmul_amadeus` |
| C3 | `matmul_optimized_eq_naive_int32` | `matmul_optimized`, `matmul_naive` |
| C5 | `matmul_optimized_overwrites` | `matmul_optimized` |
| C6 | `matmul_amadeus_target_no_overflow` | `matmul_amadeus` |
| C7 | `zero_dimensions` | the three kernels |
| C8 | `compare_matrices_iff` | `compare_matrices` |
| C9 | `compare_matrices_reports_first` | `compare_matrices` |
| C10 | `zero_matrix_spec` | `zero_matrix` |
| C11 | `randomize_matrix_deterministic` | `randomize_matrix` |
| C12 | `matmul_amadeus_is_optimized_on_widened` | `matmul_amadeus`, `matmul_optimized` |
| C13 | `matmul_naive_int8_wraps` | `matmul_naive<int8_t>` |
| C14 | `kernels_stay_in_bounds` | `matmul_optimized`, `matmul_amadeus` |
| C15 | `unrolled_jloop_is_plain_loop` | the j-loops of both blocked kernels |
| C16 | `tiles_partition_iteration_space` | the tile loops of both blocked kernels |
| C17 | `tiling_keeps_accumulation_order` | `matmul_optimized`, `matmul_naive` |
| C18 | `compare_matrices_int8_exact` | `compare_matrices<int8_t>` |

C4 concerns `float`/`double` rounding and has no theorem here. Every theorem with a
hypothesis is followed by a closed instance named after it with the suffix `_witness`.
-/

namespace TurboMul

/-! ## Buffers and loops -/

/-- Read `buf[idx]`. -/
def load {α : Type} (buf : List α) (idx : Nat) : Option α := buf[idx]?

/-- Write `buf[idx] = v`. -/
def store {α : Type} (buf : List α) (idx : Nat) (v : α) : Option (List α) :=
  if idx < buf.length then some (buf.set idx v) else none

/-- The C loop `for (; cond i; i += step) body`, started at counter `i` in state `s`.
Returns the final counter and state. The first argument after `body` bounds the
number of condition tests. -/
def loop {σ : Type} (cond : Nat → Bool) (step : Nat) (body : Nat → σ → Option σ) :
    Nat → Nat → σ → Option (Nat × σ)
  | 0, _, _ => none
  | fuel + 1, i, s =>
    if cond i then
      match body i s with
      | none => none
      | some s' => loop cond step body fuel (i + step) s'
    else some (i, s)

/-- The C loop `for (int i = lo; i < hi; i += step) body`. -/
def forLoop {σ : Type} (lo hi step : Nat) (body : Nat → σ → Option σ) (s : σ) : Option σ :=
  (loop (fun i => decide (i < hi)) step body (hi + 1) lo s).map Prod.snd

/-! ## Element types -/

/-- The arithmetic of a template element type `T`: the value `T(0)`, `+` and `*`. -/
structure Elem (α : Type) where
  zero : α
  add : α → α → α
  mul : α → α → α

/-- Reduction of an integer into the signed 32-bit range (two's complement). -/
def wrap32 (x : Int) : Int := (x + 2 ^ 31) % 2 ^ 32 - 2 ^ 31

/-- The element type `int32_t`, arithmetic taken modulo `2^32`. -/
def int32 : Elem Int where
  zero := 0
  add x y := wrap32 (x + y)
  mul x y := wrap32 (x * y)

/-- Membership in the signed 32-bit range. -/
def inRange32 (x : Int) : Bool := decide (-(2 ^ 31) ≤ x) && decide (x ≤ 2 ^ 31 - 1)

/-- The element type `int32_t` with overflow tracked: a value is `some x` as long as
every operation that produced it stayed inside the signed 32-bit range, and `none`
from the first operation that left it. -/
def int32Checked : Elem (Option Int) where
  zero := some 0
  add x y :=
    match x, y with
    | some a, some b => if inRange32 (a + b) then some (a + b) else none
    | _, _ => none
  mul x y :=
    match x, y with
    | some a, some b => if inRange32 (a * b) then some (a * b) else none
    | _, _ => none

/-- A `uint8_t` value. -/
abbrev U8 := Fin 256

/-- An `int8_t` value, held as its two's-complement byte. -/
abbrev I8 := Fin 256

/-- The byte of the `int8_t` with value `x`. -/
def i8 (x : Int) : I8 := ⟨(x % 256).toNat, by omega⟩

/-- Widening `static_cast<int32_t>` of a `uint8_t`: zero extension. -/
def zext32 (a : U8) : Int := (a.val : Int)

/-- Widening `static_cast<int32_t>` of an `int8_t`: sign extension. -/
def sext32 (b : I8) : Int := if b.val < 128 then (b.val : Int) else (b.val : Int) - 256

/-! ## matmul_naive.cpp -/

/-- The constant `TILE_SIZE`. -/
def TILE_SIZE : Nat := 64

/-- The call `std::memset(C, 0, n * sizeof(T))`: the first `n` elements become `T(0)`. -/
def memset0 {α : Type} (E : Elem α) (C : List α) (n : Nat) : Option (List α) :=
  if n ≤ C.length then some (List.replicate n E.zero ++ C.drop n) else none

/-- The statement `C[ci] += a_ik * B[bi]`. -/
def mac {α : Type} (E : Elem α) (B : List α) (a_ik : α) (ci bi : Nat) (C : List α) :
    Option (List α) :=
  (load B bi).bind fun b =>
  (load C ci).bind fun c =>
  store C ci (E.add c (E.mul a_ik b))

/-- The body of the 4-wide unrolled j-loop. -/
def mac4 {α : Type} (E : Elem α) (B : List α) (a_ik : α) (N i k j : Nat) (C : List α) :
    Option (List α) :=
  (((mac E B a_ik (i * N + j) (k * N + j) C).bind
    (mac E B a_ik (i * N + j + 1) (k * N + j + 1))).bind
    (mac E B a_ik (i * N + j + 2) (k * N + j + 2))).bind
    (mac E B a_ik (i * N + j + 3) (k * N + j + 3))

/-- The unrolled j-loop followed by the remainder loop, for fixed `i`, `k`, `a_ik`; the
remainder loop starts at the counter `r.1` and in the state `r.2` the unrolled loop ended with. -/
def jloop {α : Type} (E : Elem α) (B : List α) (a_ik : α) (N i k j0 j_max : Nat) (C : List α) :
    Option (List α) :=
  (loop (fun j => decide (j + 4 ≤ j_max)) 4 (mac4 E B a_ik N i k) (j_max + 1) j0 C).bind
    fun r => forLoop r.1 j_max 1 (fun j => mac E B a_ik (i * N + j) (k * N + j)) r.2

/-- The element loops `for (i ..) for (k ..) { a_ik = A[i*K+k]; j-loops }` of one tile. -/
def tile {α : Type} (E : Elem α) (A B : List α) (N K i0 i_max k0 k_max j0 j_max : Nat)
    (C : List α) : Option (List α) :=
  forLoop i0 i_max 1 (fun i C =>
    forLoop k0 k_max 1 (fun k C =>
      (load A (i * K + k)).bind fun a_ik =>
      jloop E B a_ik N i k j0 j_max C) C) C

/-- The function `matmul_optimized<T>(A, B, C, M, N, K)` (matmul_optimized.cpp, lines 59-91);
the result is the final content of `C`. -/
def matmul_optimized {α : Type} (E : Elem α) (A B C : List α) (M N K : Nat) : Option (List α) :=
  (memset0 E C (M * N)).bind fun C =>
  forLoop 0 M TILE_SIZE (fun i0 C =>
    let i_max := min (i0 + TILE_SIZE) M
    forLoop 0 K TILE_SIZE (fun k0 C =>
      let k_max := min (k0 + TILE_SIZE) K
      forLoop 0 N TILE_SIZE (fun j0 C =>
        let j_max := min (j0 + TILE_SIZE) N
        tile E A B N K i0 i_max k0 k_max j0 j_max C) C) C) C

/-- The statement `C[ci] += a_ik * static_cast<int32_t>(B[bi])` of `matmul_amadeus`, over an
accumulator arithmetic `E` and the widening `wb` of the `int8_t` operand. -/
def amadeus_mac {γ : Type} (E : Elem γ) (wb : I8 → γ) (B : List I8) (a_ik : γ) (ci bi : Nat)
    (C : List γ) : Option (List γ) :=
  (load B bi).bind fun b =>
  (load C ci).bind fun c =>
  store C ci (E.add c (E.mul a_ik (wb b)))

/-- The body of the 4-wide unrolled j-loop of `matmul_amadeus`. -/
def amadeus_mac4 {γ : Type} (E : Elem γ) (wb : I8 → γ) (B : List I8) (a_ik : γ)
    (N i k j : Nat) (C : List γ) : Option (List γ) :=
  (((amadeus_mac E wb B a_ik (i * N + j) (k * N + j) C).bind
    (amadeus_mac E wb B a_ik (i * N + j + 1) (k * N + j + 1))).bind
    (amadeus_mac E wb B a_ik (i * N + j + 2) (k * N + j + 2))).bind
    (amadeus_mac E wb B a_ik (i * N + j + 3) (k * N + j + 3))

/-- The unrolled j-loop and the remainder loop of `matmul_amadeus`. -/
def amadeus_jloop {γ : Type} (E : Elem γ) (wb : I8 → γ) (B : List I8) (a_ik : γ)
    (N i k j0 j_max : Nat) (C : List γ) : Option (List γ) :=
  (loop (fun j => decide (j + 4 ≤ j_max)) 4 (amadeus_mac4 E wb B a_ik N i k)
      (j_max + 1) j0 C).bind
    fun r => forLoop r.1 j_max 1
      (fun j => amadeus_mac E wb B a_ik (i * N + j) (k * N + j)) r.2

/-- The element loops of one tile of `matmul_amadeus`. -/
def amadeus_tile {γ : Type} (E : Elem γ) (wa : U8 → γ) (wb : I8 → γ) (A : List U8)
    (B : List I8) (N K i0 i_max k0 k_max j0 j_max : Nat) (C : List γ) : Option (List γ) :=
  forLoop i0 i_max 1 (fun i C =>
    forLoop k0 k_max 1 (fun k C =>
      (load A (i * K + k)).bind fun a =>
      amadeus_jloop E wb B (wa a) N i k j0 j_max C) C) C

/-- The body of `matmul_amadeus(A, B, C, M, K, N)` (matmul_optimized.cpp, lines 17-56) over
an interpretation of its `int32_t` arithmetic: `E` is the accumulator arithmetic, `wa` and
`wb` the two widening casts. -/
def matmul_amadeus_with {γ : Type} (E : Elem γ) (wa : U8 → γ) (wb : I8 → γ) (A : List U8)
    (B : List I8) (C : List γ) (M K N : Nat) : Option (List γ) :=
  (memset0 E C (M * N)).bind fun C =>
  forLoop 0 M TILE_SIZE (fun i0 C =>
    let i_max := min (i0 + TILE_SIZE) M
    forLoop 0 K TILE_SIZE (fun k0 C =>
      let k_max := min (k0 + TILE_SIZE) K
      forLoop 0 N TILE_SIZE (fun j0 C =>
        let j_max := min (j0 + TILE_SIZE) N
        amadeus_tile E wa wb A B N K i0 i_max k0 k_max j0 j_max C) C) C) C

/-- The function `matmul_amadeus(A, B, C, M, K, N)` with `int32_t` arithmetic modulo `2^32`. -/
def matmul_amadeus (A : List U8) (B : List I8) (C : List Int) (M K N : Nat) :
    Option (List Int) :=
  matmul_amadeus_with int32 zext32 sext32 A B C M K N

/-- The same function with overflow of the `int32_t` arithmetic tracked. -/
def matmul_amadeus_checked (A : List U8) (B : List I8) (C : List (Option Int)) (M K N : Nat) :
    Option (List (Option Int)) :=
  matmul_amadeus_with int32Checked (fun a => some (zext32 a)) (fun b => some (sext32 b))
    A B C M K N

/-! ## Mathematical reference values -/

/-- The k-th term `A[i*K+k] * B[k*N+j]` of the dot product. -/
def term {α : Type} (E : Elem α) (A B : List α) (N K i j k : Nat) : α :=
  E.mul (A.getD (i * K + k) E.zero) (B.getD (k * N + j) E.zero)

/-- The terms `k = k0, ..., k1 - 1` added to `c` one after the other, in ascending `k`. -/
def accum {α : Type} (E : Elem α) (A B : List α) (N K i j : Nat) (c : α) (k0 k1 : Nat) : α :=
  (List.range' k0 (k1 - k0)).foldl (fun s k => E.add s (term E A B N K i j k)) c

/-- The dot product of row `i` of `A` and column `j` of `B`, folded from `T(0)` in
ascending `k`. -/
def dot {α : Type} (E : Elem α) (A B : List α) (N K i j : Nat) : α :=
  accum E A B N K i j E.zero 0 K

/-- The row-major `M × N` matrix of all dot products. -/
def product {α : Type} (E : Elem α) (A B : List α) (M N K : Nat) : List α :=
  (List.range (M * N)).map fun idx => dot E A B N K (idx / N) (idx % N)

/-- The exact integer dot product `Σ_k zext(A[i*K+k]) * sext(B[k*N+j])`. -/
def exactDot (A : List U8) (B : List I8) (N K i j : Nat) : Int :=
  ∑ k in Finset.range K, zext32 (A.getD (i * K + k) 0) * sext32 (B.getD (k * N + j) 0)

/-! ## Further element types, the random fill and instrumentation -/

/-- The buffer `C` with every cell `(i, j)` of the row-major view of row length `N`
replaced by `f i j` of its old value. -/
def cellwise {α : Type} (N : Nat) (f : Nat → Nat → α → α) (C : List α) : List α :=
  C.mapIdx fun idx c => f (idx / N) (idx % N) c

/-! ## Loop rules -/

/-- Total-correctness rule for `loop`: an invariant kept by the body holds at exit, where
the condition is false, provided the condition bounds the counter and the budget covers
the distance to that bound. -/
theorem loop_rule {σ : Type} (cond : Nat → Bool) (step : Nat) (body : Nat → σ → Option σ)
    (hstep : 0 < step) (hi : Nat) (hc : ∀ x, cond x = true → x < hi)
    (Inv : Nat → σ → Prop)
    (hbody : ∀ x s, cond x = true → Inv x s → ∃ s', body x s = some s' ∧ Inv (x + step) s') :
    ∀ (fuel i : Nat) (s : σ), 0 < fuel → hi < i + fuel → Inv i s →
      ∃ x' s', loop cond step body fuel i s = some (x', s') ∧ cond x' = false ∧ Inv x' s' := by
  intro fuel
  induction fuel with
  | zero => intro i s h; omega
  | succ n ih =>
    intro i s _ hfuel hinv
    unfold loop
    by_cases hci : cond i = true
    · obtain ⟨s', hs', hinv'⟩ := hbody i s hci hinv
      have hlt := hc i hci
      simp only [hci, if_true, hs']
      exact ih (i + step) s' (by omega) (by omega) hinv'
    · simp only [hci]
      exact ⟨i, s, rfl, by simpa using hci, hinv⟩

/-- Total-correctness rule for `forLoop`. -/
theorem forLoop_rule {σ : Type} (lo hi step : Nat) (body : Nat → σ → Option σ) (s : σ)
    (hstep : 0 < step) (Inv : Nat → σ → Prop) (h0 : Inv lo s)
    (hbody : ∀ x s, x < hi → Inv x s → ∃ s', body x s = some s' ∧ Inv (x + step) s') :
    ∃ x' s', forLoop lo hi step body s = some s' ∧ hi ≤ x' ∧ Inv x' s' := by
  obtain ⟨x', s', h, hx, hinv⟩ := loop_rule (fun i => decide (i < hi)) step body hstep hi
    (fun x hx => by simpa using hx) Inv
    (fun x s hx => hbody x s (by simpa using hx)) (hi + 1) lo s (by omega) (by omega) h0
  refine ⟨x', s', ?_, by simpa using hx, hinv⟩
  simp [forLoop, h]

/-- Rule for a unit-step `forLoop` over `[lo, hi)`: the invariant holds at `hi`. -/
theorem forLoop_unit {σ : Type} (lo hi : Nat) (body : Nat → σ → Option σ) (s : σ)
    (hle : lo ≤ hi) (Inv : Nat → σ → Prop) (h0 : Inv lo s)
    (hbody : ∀ x s, lo ≤ x → x < hi → Inv x s → ∃ s', body x s = some s' ∧ Inv (x + 1) s') :
    ∃ s', forLoop lo hi 1 body s = some s' ∧ Inv hi s' := by
  obtain ⟨x', s', h, hx, hx', hinv⟩ := forLoop_rule lo hi 1 body s (by omega)
    (fun x s => (lo ≤ x ∧ x ≤ hi) ∧ Inv x s) ⟨⟨le_refl _, hle⟩, h0⟩
    (fun x s hx hinv => by
      obtain ⟨s', hs', hinv'⟩ := hbody x s hinv.1.1 hx hinv.2
      exact ⟨s', hs', ⟨by omega, by omega⟩, hinv'⟩)
  have : x' = hi := by omega
  subst this
  exact ⟨s', h, hinv⟩

theorem idx_lt {M N i j : Nat} (hi : i < M) (hj : j < N) : i * N + j < M * N := by
  have h : (i + 1) * N ≤ M * N := Nat.mul_le_mul_right N hi
  have h2 : (i + 1) * N = i * N + N := by ring
  omega

theorem idx_div {N i j : Nat} (hj : j < N) : (i * N + j) / N = i := by
  have hN : 0 < N := by omega
  rw [Nat.mul_comm, Nat.mul_add_div hN, Nat.div_eq_of_lt hj, Nat.add_zero]

theorem idx_mod {N i j : Nat} (hj : j < N) : (i * N + j) % N = j := by
  rw [Nat.mul_comm, Nat.mul_add_mod, Nat.mod_eq_of_lt hj]

theorem cell_of_idx {M N idx : Nat} (h : idx < M * N) :
    idx / N < M ∧ idx % N < N ∧ idx / N * N + idx % N = idx := by
  have hN : 0 < N := by
    rcases Nat.eq_zero_or_pos N with h0 | h0
    · subst h0; simp at h
    · exact h0
  refine ⟨?_, Nat.mod_lt _ hN, Nat.div_add_mod' idx N⟩
  exact Nat.div_lt_of_lt_mul (by rwa [Nat.mul_comm] at h)

theorem length_cellwise {α : Type} (N : Nat) (f : Nat → Nat → α → α) (C : List α) :
    (cellwise N f C).length = C.length := by
  simp [cellwise]

theorem cellwise_cellwise {α : Type} (N : Nat) (f g : Nat → Nat → α → α) (C : List α) :
    cellwise N g (cellwise N f C) = cellwise N (fun i j c => g i j (f i j c)) C := by
  simp [cellwise, List.mapIdx_mapIdx, Function.comp_def]

theorem cellwise_congr {α : Type} {M N : Nat} {f g : Nat → Nat → α → α} {C : List α}
    (hlen : C.length = M * N)
    (h : ∀ i j c, i < M → j < N → f i j c = g i j c) :
    cellwise N f C = cellwise N g C := by
  apply List.ext_getElem?
  intro idx
  simp only [cellwise, List.getElem?_mapIdx]
  by_cases hidx : idx < C.length
  · obtain ⟨h1, h2, _⟩ := cell_of_idx (hlen ▸ hidx)
    rw [List.getElem?_eq_getElem hidx]
    simp [h _ _ _ h1 h2]
  · rw [List.getElem?_eq_none (by omega)]
    rfl

theorem cellwise_id {α : Type} {M N : Nat} {f : Nat → Nat → α → α} {C : List α}
    (hlen : C.length = M * N)
    (h : ∀ i j c, i < M → j < N → f i j c = c) :
    cellwise N f C = C := by
  rw [cellwise_congr hlen (g := fun _ _ c => c) h]
  apply List.ext_getElem?
  intro idx
  simp [cellwise]

theorem getElem?_cellwise {α : Type} {N : Nat} (f : Nat → Nat → α → α) (C : List α)
    {i j : Nat} (hj : j < N) :
    (cellwise N f C)[i * N + j]? = (C[i * N + j]?).map (f i j) := by
  simp [cellwise, idx_div hj, idx_mod hj]

theorem set_eq_cellwise {α : Type} {M N i j : Nat} {C : List α} (hlen : C.length = M * N)
    (hj : j < N) (v : α) :
    C.set (i * N + j) v = cellwise N (fun i' j' c => if i' = i ∧ j' = j then v else c) C := by
  apply List.ext_getElem?
  intro idx
  simp only [cellwise, List.getElem?_mapIdx, List.getElem?_set]
  by_cases hidx : idx < C.length
  · obtain ⟨h1, h2, h3⟩ := cell_of_idx (hlen ▸ hidx)
    rw [List.getElem?_eq_getElem hidx]
    by_cases he : i * N + j = idx
    · subst he
      simp [idx_div hj, idx_mod hj, hidx]
    · have : ¬ (idx / N = i ∧ idx % N = j) := by
        rintro ⟨rfl, rfl⟩
        exact he h3
      simp [he, this]
  · have : ¬ i * N + j = idx ∨ ¬ i * N + j < C.length := by omega
    rw [List.getElem?_eq_none (by omega)]
    rcases this with h | h <;> simp [h]

/-! ## Partial dot products -/

theorem accum_self {α : Type} (E : Elem α) (A B : List α) (N K i j : Nat) (c : α) (k0 k1 : Nat)
    (h : k1 ≤ k0) : accum E A B N K i j c k0 k1 = c := by
  have : k1 - k0 = 0 := by omega
  simp [accum, this]

theorem accum_succ {α : Type} (E : Elem α) (A B : List α) (N K i j : Nat) (c : α) (k0 k : Nat)
    (h : k0 ≤ k) :
    accum E A B N K i j c k0 (k + 1) = E.add (accum E A B N K i j c k0 k) (term E A B N K i j k) := by
  have h1 : k + 1 - k0 = (k - k0) + 1 := by omega
  have h2 : k0 + (k - k0) = k := by omega
  simp [accum, h1, List.range'_concat, List.foldl_append, h2]

theorem accum_trans {α : Type} (E : Elem α) (A B : List α) (N K i j : Nat) (c : α) (k0 k1 k2 : Nat)
    (h1 : k0 ≤ k1) (h2 : k1 ≤ k2) :
    accum E A B N K i j (accum E A B N K i j c k0 k1) k1 k2 = accum E A B N K i j c k0 k2 := by
  have e : k2 - k0 = (k2 - k1) + (k1 - k0) := by omega
  have e2 : k0 + 1 * (k1 - k0) = k1 := by omega
  unfold accum
  rw [e, ← List.range'_append k0 (k1 - k0) (k2 - k1) 1, List.foldl_append, e2]

/-! ## The blocked kernel, level by level -/

theorem load_eq {α : Type} (buf : List α) (idx : Nat) (d : α) (h : idx < buf.length) :
    load buf idx = some (buf.getD idx d) := by
  simp [load, List.getD, List.getElem?_eq_getElem h]

/-- One multiply-accumulate changes exactly the cell `(i, j)`. -/
theorem mac_eq {α : Type} (E : Elem α) (B C : List α) (a : α) {M N K i j k : Nat}
    (hB : K * N ≤ B.length) (hC : C.length = M * N) (hi : i < M) (hk : k < K) (hj : j < N) :
    mac E B a (i * N + j) (k * N + j) C = some (cellwise N (fun i' j' c =>
      if i' = i ∧ j' = j then E.add c (E.mul a (B.getD (k * N + j') E.zero)) else c) C) := by
  have hb : k * N + j < B.length := Nat.lt_of_lt_of_le (idx_lt hk hj) hB
  have hc : i * N + j < C.length := hC ▸ idx_lt hi hj
  unfold mac
  rw [load_eq B _ E.zero hb]
  simp only [load, List.getElem?_eq_getElem hc, store, hc, if_true, Option.bind]
  rw [set_eq_cellwise hC hj]
  congr 1
  apply List.ext_getElem?
  intro idx
  simp only [cellwise, List.getElem?_mapIdx]
  by_cases hidx : idx < C.length
  · obtain ⟨h1, h2, h3⟩ := cell_of_idx (hC ▸ hidx)
    rw [List.getElem?_eq_getElem hidx]
    by_cases he : idx / N = i ∧ idx % N = j
    · obtain ⟨e1, e2⟩ := he
      have : idx = i * N + j := by rw [← h3, e1, e2]
      subst this
      simp [idx_div hj, idx_mod hj]
    · simp [he]
  · rw [List.getElem?_eq_none (by omega)]
    rfl

/-- The unrolled body changes exactly the cells `(i, j) .. (i, j + 3)`. -/
theorem mac4_eq {α : Type} (E : Elem α) (B C : List α) (a : α) {M N K i j k : Nat}
    (hB : K * N ≤ B.length) (hC : C.length = M * N) (hi : i < M) (hk : k < K) (hj : j + 4 ≤ N) :
    mac4 E B a N i k j C = some (cellwise N (fun i' j' c =>
      if i' = i ∧ j ≤ j' ∧ j' < j + 4 then E.add c (E.mul a (B.getD (k * N + j') E.zero))
      else c) C) := by
  unfold mac4
  rw [Nat.add_assoc (i * N) j 1, Nat.add_assoc (i * N) j 2, Nat.add_assoc (i * N) j 3,
    Nat.add_assoc (k * N) j 1, Nat.add_assoc (k * N) j 2, Nat.add_assoc (k * N) j 3]
  rw [mac_eq E B C a hB hC hi hk (by omega : j < N)]
  simp only [Option.bind]
  rw [mac_eq E B _ a hB (by simp only [length_cellwise]; exact hC) hi hk (by omega : j + 1 < N)]
  simp only [Option.bind]
  rw [mac_eq E B _ a hB (by simp only [length_cellwise]; exact hC) hi hk (by omega : j + 2 < N)]
  simp only [Option.bind]
  rw [mac_eq E B _ a hB (by simp only [length_cellwise]; exact hC) hi hk (by omega : j + 3 < N)]
  simp only [cellwise_cellwise]
  congr 1
  apply cellwise_congr hC
  intro i' j' c _ _
  beta_reduce
  split_ifs <;> first | rfl | (exfalso; omega)

/-- The unrolled loop and its remainder loop together change exactly the cells
`(i, j0) .. (i, j_max - 1)`, each by one multiply-accumulate. -/
theorem jloop_eq {α : Type} (E : Elem α) (B C : List α) (a : α) {M N K i k j0 j_max : Nat}
    (hB : K * N ≤ B.length) (hC : C.length = M * N) (hi : i < M) (hk : k < K)
    (h0 : j0 ≤ j_max) (h1 : j_max ≤ N) :
    jloop E B a N i k j0 j_max C = some (cellwise N (fun i' j' c =>
      if i' = i ∧ j0 ≤ j' ∧ j' < j_max then E.add c (E.mul a (B.getD (k * N + j') E.zero))
      else c) C) := by
  let F : Nat → α → α := fun j' c => E.add c (E.mul a (B.getD (k * N + j') E.zero))
  let Inv : Nat → List α → Prop := fun j C' =>
    (j0 ≤ j ∧ j ≤ j_max) ∧
      C' = cellwise N (fun i' j' c => if i' = i ∧ j0 ≤ j' ∧ j' < j then F j' c else c) C
  have hinit : Inv j0 C := by
    refine ⟨⟨le_refl _, h0⟩, ?_⟩
    symm
    apply cellwise_id hC
    intro i' j' c _ _
    have : ¬ (i' = i ∧ j0 ≤ j' ∧ j' < j0) := by omega
    simp [this]
  obtain ⟨j, C1, hrun, hexit, ⟨hj0, hjm⟩, hC1⟩ :=
    loop_rule (fun j => decide (j + 4 ≤ j_max)) 4 (mac4 E B a N i k) (by omega) j_max
      (fun x hx => by have : x + 4 ≤ j_max := by simpa using hx
                      omega) Inv
      (fun x s hx hinv => by
        have hx4 : x + 4 ≤ j_max := by simpa using hx
        obtain ⟨⟨hx0, _⟩, hs⟩ := hinv
        have hlen : s.length = M * N := by rw [hs, length_cellwise]; exact hC
        refine ⟨_, mac4_eq E B s a hB hlen hi hk (by omega), ⟨by omega, by omega⟩, ?_⟩
        rw [hs, cellwise_cellwise]
        apply cellwise_congr hC
        intro i' j' c _ _
        beta_reduce
        split_ifs <;> first | rfl | (exfalso; omega))
      (j_max + 1) j0 C (by omega) (by omega) hinit
  obtain ⟨C2, hrun2, _, hC2⟩ :=
    forLoop_unit j j_max (fun j => mac E B a (i * N + j) (k * N + j)) C1 hjm Inv
      ⟨⟨hj0, hjm⟩, hC1⟩
      (fun x s hx0 hx hinv => by
        obtain ⟨⟨hx0, _⟩, hs⟩ := hinv
        have hlen : s.length = M * N := by rw [hs, length_cellwise]; exact hC
        refine ⟨_, mac_eq E B s a hB hlen hi hk (by omega), ⟨by omega, by omega⟩, ?_⟩
        rw [hs, cellwise_cellwise]
        apply cellwise_congr hC
        intro i' j' c _ _
        beta_reduce
        split_ifs <;> first | rfl | (exfalso; omega))
  unfold jloop
  rw [hrun]
  simp only [Option.bind, hrun2, hC2, F]

/-- The k-loop of one row of a tile adds the terms `k0 .. k_max - 1`, in this order, to
every cell `(i, j0) .. (i, j_max - 1)`. -/
theorem krow_eq {α : Type} (E : Elem α) (A B C : List α) {M N K i k0 k_max j0 j_max : Nat}
    (hA : M * K ≤ A.length) (hB : K * N ≤ B.length) (hC : C.length = M * N) (hi : i < M)
    (hk0 : k0 ≤ k_max) (hk1 : k_max ≤ K) (hj0 : j0 ≤ j_max) (hj1 : j_max ≤ N) :
    forLoop k0 k_max 1 (fun k C =>
      (load A (i * K + k)).bind fun a_ik => jloop E B a_ik N i k j0 j_max C) C
    = some (cellwise N (fun i' j' c =>
        if i' = i ∧ j0 ≤ j' ∧ j' < j_max then accum E A B N K i' j' c k0 k_max else c) C) := by
  obtain ⟨C', hrun, hC'⟩ := forLoop_unit k0 k_max
    (fun k C => (load A (i * K + k)).bind fun a_ik => jloop E B a_ik N i k j0 j_max C) C hk0
    (fun k C' => C' = cellwise N (fun i' j' c =>
        if i' = i ∧ j0 ≤ j' ∧ j' < j_max then accum E A B N K i' j' c k0 k else c) C)
    (by
      show C = cellwise N _ C
      symm
      apply cellwise_id hC
      intro i' j' c _ _
      simp [accum_self])
    (fun k s hk0' hk hs => by
      have hs : s = cellwise N _ C := hs
      have hlen : s.length = M * N := by rw [hs, length_cellwise]; exact hC
      have hk' : k < K := by omega
      have hb : ((load A (i * K + k)).bind fun a_ik => jloop E B a_ik N i k j0 j_max s)
          = some (cellwise N (fun i' j' c =>
              if i' = i ∧ j0 ≤ j' ∧ j' < j_max
              then E.add c (E.mul (A.getD (i * K + k) E.zero) (B.getD (k * N + j') E.zero))
              else c) s) := by
        simp only [load_eq A _ E.zero (Nat.lt_of_lt_of_le (idx_lt hi hk') hA), Option.bind]
        exact jloop_eq E B s _ hB hlen hi hk' hj0 hj1
      refine ⟨_, hb, ?_⟩
      show cellwise N _ s = cellwise N _ C
      rw [hs, cellwise_cellwise]
      apply cellwise_congr hC
      intro i' j' c _ _
      beta_reduce
      by_cases h : i' = i ∧ j0 ≤ j' ∧ j' < j_max
      · simp only [if_pos h]
        rw [accum_succ E A B N K i' j' c k0 k hk0', h.1]
        rfl
      · simp only [if_neg h])
  rw [hrun, hC']

/-- One tile adds the terms `k0 .. k_max - 1`, in this order, to every cell of the block
`[i0, i_max) × [j0, j_max)`. -/
theorem tile_eq {α : Type} (E : Elem α) (A B C : List α)
    {M N K i0 i_max k0 k_max j0 j_max : Nat}
    (hA : M * K ≤ A.length) (hB : K * N ≤ B.length) (hC : C.length = M * N)
    (hi0 : i0 ≤ i_max) (hi1 : i_max ≤ M)
    (hk0 : k0 ≤ k_max) (hk1 : k_max ≤ K) (hj0 : j0 ≤ j_max) (hj1 : j_max ≤ N) :
    tile E A B N K i0 i_max k0 k_max j0 j_max C
    = some (cellwise N (fun i' j' c =>
        if (i0 ≤ i' ∧ i' < i_max) ∧ j0 ≤ j' ∧ j' < j_max
        then accum E A B N K i' j' c k0 k_max else c) C) := by
  obtain ⟨C', hrun, hC'⟩ := forLoop_unit i0 i_max
    (fun i C => forLoop k0 k_max 1 (fun k C =>
      (load A (i * K + k)).bind fun a_ik => jloop E B a_ik N i k j0 j_max C) C) C hi0
    (fun i C' => C' = cellwise N (fun i' j' c =>
        if (i0 ≤ i' ∧ i' < i) ∧ j0 ≤ j' ∧ j' < j_max
        then accum E A B N K i' j' c k0 k_max else c) C)
    (by
      show C = cellwise N _ C
      symm
      apply cellwise_id hC
      intro i' j' c _ _
      have : ¬ ((i0 ≤ i' ∧ i' < i0) ∧ j0 ≤ j' ∧ j' < j_max) := by omega
      simp [this])
    (fun i s hi0' hi hs => by
      have hs : s = cellwise N _ C := hs
      have hlen : s.length = M * N := by rw [hs, length_cellwise]; exact hC
      refine ⟨_, krow_eq E A B s hA hB hlen (by omega : i < M) hk0 hk1 hj0 hj1, ?_⟩
      show cellwise N _ s = cellwise N _ C
      rw [hs, cellwise_cellwise]
      apply cellwise_congr hC
      intro i' j' c _ _
      beta_reduce
      split_ifs <;> first | rfl | (exfalso; omega))
  unfold tile
  rw [hrun, hC']

/-- The j-tile loop covers all columns of the rows `[i0, i_max)`. -/
theorem jtiles_eq {α : Type} (E : Elem α) (A B C : List α) {M N K i0 i_max k0 k_max : Nat}
    (hA : M * K ≤ A.length) (hB : K * N ≤ B.length) (hC : C.length = M * N)
    (hi0 : i0 ≤ i_max) (hi1 : i_max ≤ M) (hk0 : k0 ≤ k_max) (hk1 : k_max ≤ K) :
    forLoop 0 N TILE_SIZE (fun j0 C =>
      tile E A B N K i0 i_max k0 k_max j0 (min (j0 + TILE_SIZE) N) C) C
    = some (cellwise N (fun i' j' c =>
        if i0 ≤ i' ∧ i' < i_max then accum E A B N K i' j' c k0 k_max else c) C) := by
  have hT : TILE_SIZE = 64 := rfl
  obtain ⟨x, C', hrun, hx, hC'⟩ := forLoop_rule 0 N TILE_SIZE
    (fun j0 C => tile E A B N K i0 i_max k0 k_max j0 (min (j0 + TILE_SIZE) N) C) C
    (by omega)
    (fun x C' => C' = cellwise N (fun i' j' c =>
        if (i0 ≤ i' ∧ i' < i_max) ∧ j' < x then accum E A B N K i' j' c k0 k_max else c) C)
    (by
      show C = cellwise N _ C
      symm
      apply cellwise_id hC
      intro i' j' c _ _
      have : ¬ ((i0 ≤ i' ∧ i' < i_max) ∧ j' < 0) := by omega
      simp [this])
    (fun x s hx hs => by
      have hs : s = cellwise N _ C := hs
      have hlen : s.length = M * N := by rw [hs, length_cellwise]; exact hC
      refine ⟨_, tile_eq E A B s hA hB hlen hi0 hi1 hk0 hk1 (by omega) (by omega), ?_⟩
      show cellwise N _ s = cellwise N _ C
      rw [hs, cellwise_cellwise]
      apply cellwise_congr hC
      intro i' j' c _ _
      beta_reduce
      split_ifs <;> first | rfl | (exfalso; omega))
  rw [hrun, hC']
  congr 1
  apply cellwise_congr hC
  intro i' j' c _ _
  beta_reduce
  split_ifs <;> first | rfl | (exfalso; omega)

/-- The k-tile loop adds all `K` terms, in ascending order, to the rows `[i0, i_max)`. -/
theorem ktiles_eq {α : Type} (E : Elem α) (A B C : List α) {M N K i0 i_max : Nat}
    (hA : M * K ≤ A.length) (hB : K * N ≤ B.length) (hC : C.length = M * N)
    (hi0 : i0 ≤ i_max) (hi1 : i_max ≤ M) :
    forLoop 0 K TILE_SIZE (fun k0 C =>
      forLoop 0 N TILE_SIZE (fun j0 C =>
        tile E A B N K i0 i_max k0 (min (k0 + TILE_SIZE) K) j0 (min (j0 + TILE_SIZE) N) C) C) C
    = some (cellwise N (fun i' j' c =>
        if i0 ≤ i' ∧ i' < i_max then accum E A B N K i' j' c 0 K else c) C) := by
  have hT : TILE_SIZE = 64 := rfl
  obtain ⟨x, C', hrun, hx, hC'⟩ := forLoop_rule 0 K TILE_SIZE
    (fun k0 C => forLoop 0 N TILE_SIZE (fun j0 C =>
        tile E A B N K i0 i_max k0 (min (k0 + TILE_SIZE) K) j0 (min (j0 + TILE_SIZE) N) C) C) C
    (by omega)
    (fun x C' => C' = cellwise N (fun i' j' c =>
        if i0 ≤ i' ∧ i' < i_max then accum E A B N K i' j' c 0 (min x K) else c) C)
    (by
      show C = cellwise N _ C
      symm
      apply cellwise_id hC
      intro i' j' c _ _
      simp [accum_self])
    (fun x s hx hs => by
      have hs : s = cellwise N _ C := hs
      have hlen : s.length = M * N := by rw [hs, length_cellwise]; exact hC
      refine ⟨_, jtiles_eq E A B s hA hB hlen hi0 hi1 (by omega) (by omega), ?_⟩
      show cellwise N _ s = cellwise N _ C
      rw [hs, cellwise_cellwise]
      apply cellwise_congr hC
      intro i' j' c _ _
      beta_reduce
      by_cases h : i0 ≤ i' ∧ i' < i_max
      · simp only [if_pos h]
        rw [Nat.min_eq_left (Nat.le_of_lt hx)]
        exact accum_trans E A B N K i' j' c 0 x _ (by omega) (by omega)
      · simp only [if_neg h])
  rw [hrun, hC', Nat.min_eq_right hx]

/-- The i-tile loop adds all `K` terms, in ascending order, to every cell. -/
theorem itiles_eq {α : Type} (E : Elem α) (A B C : List α) {M N K : Nat}
    (hA : M * K ≤ A.length) (hB : K * N ≤ B.length) (hC : C.length = M * N) :
    forLoop 0 M TILE_SIZE (fun i0 C =>
      forLoop 0 K TILE_SIZE (fun k0 C =>
        forLoop 0 N TILE_SIZE (fun j0 C =>
          tile E A B N K i0 (min (i0 + TILE_SIZE) M) k0 (min (k0 + TILE_SIZE) K)
            j0 (min (j0 + TILE_SIZE) N) C) C) C) C
    = some (cellwise N (fun i' j' c => accum E A B N K i' j' c 0 K) C) := by
  have hT : TILE_SIZE = 64 := rfl
  obtain ⟨x, C', hrun, hx, hC'⟩ := forLoop_rule 0 M TILE_SIZE
    (fun i0 C => forLoop 0 K TILE_SIZE (fun k0 C =>
        forLoop 0 N TILE_SIZE (fun j0 C =>
          tile E A B N K i0 (min (i0 + TILE_SIZE) M) k0 (min (k0 + TILE_SIZE) K)
            j0 (min (j0 + TILE_SIZE) N) C) C) C) C
    (by omega)
    (fun x C' => C' = cellwise N (fun i' j' c =>
        if i' < x then accum E A B N K i' j' c 0 K else c) C)
    (by
      show C = cellwise N _ C
      symm
      apply cellwise_id hC
      intro i' j' c _ _
      simp)
    (fun x s hx hs => by
      have hs : s = cellwise N _ C := hs
      have hlen : s.length = M * N := by rw [hs, length_cellwise]; exact hC
      refine ⟨_, ktiles_eq E A B s hA hB hlen (by omega) (by omega), ?_⟩
      show cellwise N _ s = cellwise N _ C
      rw [hs, cellwise_cellwise]
      apply cellwise_congr hC
      intro i' j' c _ _
      beta_reduce
      split_ifs <;> first | rfl | (exfalso; omega))
  rw [hrun, hC']
  congr 1
  apply cellwise_congr hC
  intro i' j' c _ _
  beta_reduce
  split_ifs <;> first | rfl | (exfalso; omega)

theorem memset0_eq {α : Type} (E : Elem α) (C : List α) (n : Nat) (h : C.length = n) :
    memset0 E C n = some (List.replicate n E.zero) := by
  simp [memset0, h.symm]

theorem getElem?_product {α : Type} (E : Elem α) (A B : List α) {M N K i j : Nat}
    (hi : i < M) (hj : j < N) :
    (product E A B M N K)[i * N + j]? = some (dot E A B N K i j) := by
  simp [product, List.getElem?_range (idx_lt hi hj), idx_div hj, idx_mod hj]

/-- The blocked kernel computes the matrix of dot products, whatever `C` held before. -/
theorem matmul_optimized_eq {α : Type} (E : Elem α) (A B C : List α) {M N K : Nat}
    (hA : M * K ≤ A.length) (hB : K * N ≤ B.length) (hC : C.length = M * N) :
    matmul_optimized E A B C M N K = some (product E A B M N K) := by
  unfold matmul_optimized
  rw [memset0_eq E C _ hC]
  show forLoop 0 M TILE_SIZE _ (List.replicate (M * N) E.zero) = _
  rw [itiles_eq E A B _ hA hB (by simp)]
  congr 1
  apply List.ext_getElem?
  intro idx
  by_cases hidx : idx < M * N
  · simp [cellwise, product, hidx, dot]
  · have h1 : (cellwise N (fun i' j' c => accum E A B N K i' j' c 0 K)
        (List.replicate (M * N) E.zero))[idx]? = none :=
      List.getElem?_eq_none (by simp [length_cellwise]; omega)
    have h2 : (product E A B M N K)[idx]? = none :=
      List.getElem?_eq_none (by simp [product]; omega)
    rw [h1, h2]

/-! ## The reference kernel -/

theorem load_map {α β : Type} (f : α → β) (buf : List α) (idx : Nat) :
    load (buf.map f) idx = (load buf idx).map f := by
  simp [load]

theorem amadeus_mac_eq {γ : Type} (E : Elem γ) (wb : I8 → γ) (B : List I8) (a : γ)
    (ci bi : Nat) : amadeus_mac E wb B a ci bi = mac E (B.map wb) a ci bi := by
  funext C
  unfold amadeus_mac mac
  rw [load_map]
  cases load B bi <;> rfl

theorem amadeus_mac4_eq {γ : Type} (E : Elem γ) (wb : I8 → γ) (B : List I8) (a : γ)
    (N i k : Nat) : amadeus_mac4 E wb B a N i k = mac4 E (B.map wb) a N i k := by
  funext j C
  simp only [amadeus_mac4, mac4, amadeus_mac_eq]

theorem amadeus_jloop_eq {γ : Type} (E : Elem γ) (wb : I8 → γ) (B : List I8) (a : γ)
    (N i k j0 j_max : Nat) :
    amadeus_jloop E wb B a N i k j0 j_max = jloop E (B.map wb) a N i k j0 j_max := by
  funext C
  simp only [amadeus_jloop, jloop, amadeus_mac_eq, amadeus_mac4_eq]

theorem amadeus_tile_eq {γ : Type} (E : Elem γ) (wa : U8 → γ) (wb : I8 → γ) (A : List U8)
    (B : List I8) (N K i0 i_max k0 k_max j0 j_max : Nat) :
    amadeus_tile E wa wb A B N K i0 i_max k0 k_max j0 j_max
      = tile E (A.map wa) (B.map wb) N K i0 i_max k0 k_max j0 j_max := by
  funext C
  unfold amadeus_tile tile
  congr 1
  funext i C
  congr 1
  funext k C
  simp only [load_map, amadeus_jloop_eq]
  cases load A (i * K + k) <;> rfl

/-- The quantized kernel is the blocked kernel run on the widened operands, with the
dimension arguments `K` and `N` exchanged. -/
theorem matmul_amadeus_with_eq {γ : Type} (E : Elem γ) (wa : U8 → γ) (wb : I8 → γ)
    (A : List U8) (B : List I8) (C : List γ) (M K N : Nat) :
    matmul_amadeus_with E wa wb A B C M K N
      = matmul_optimized E (A.map wa) (B.map wb) C M N K := by
  simp only [matmul_amadeus_with, matmul_optimized, amadeus_tile_eq]

/-! ## Arithmetic of the 32-bit accumulator -/

theorem wrap32_add (x y : Int) : wrap32 (wrap32 x + wrap32 y) = wrap32 (x + y) := by
  unfold wrap32
  omega

theorem wrap32_of_inRange (x : Int) (h : inRange32 x = true) : wrap32 x = x := by
  simp only [inRange32, Bool.and_eq_true, decide_eq_true_eq] at h
  unfold wrap32
  omega

theorem zext32_bounds (a : U8) : 0 ≤ zext32 a ∧ zext32 a ≤ 255 := by
  have := a.isLt
  unfold zext32
  omega

theorem sext32_bounds (b : I8) : -128 ≤ sext32 b ∧ sext32 b ≤ 127 := by
  have := b.isLt
  unfold sext32
  split <;> omega

theorem getD_map_zext (A : List U8) (idx : Nat) :
    (A.map zext32).getD idx int32.zero = zext32 (A.getD idx 0) := by
  simp only [List.getD_eq_getElem?_getD, List.getElem?_map]
  cases A[idx]? <;> rfl

theorem getD_map_sext (B : List I8) (idx : Nat) :
    (B.map sext32).getD idx int32.zero = sext32 (B.getD idx 0) := by
  simp only [List.getD_eq_getElem?_getD, List.getElem?_map]
  cases B[idx]? <;> rfl

/-- Wrapped accumulation of the widened products is the exact sum reduced to 32 bits. -/
theorem accum_int32 (A : List U8) (B : List I8) (N K i j n : Nat) :
    accum int32 (A.map zext32) (B.map sext32) N K i j int32.zero 0 n
      = wrap32 (∑ k in Finset.range n,
          zext32 (A.getD (i * K + k) 0) * sext32 (B.getD (k * N + j) 0)) := by
  induction n with
  | zero => simp [accum_self, int32, wrap32]
  | succ n ih =>
    rw [accum_succ _ _ _ _ _ _ _ _ 0 n (Nat.zero_le n), ih, Finset.sum_range_succ]
    simp only [term, getD_map_zext, getD_map_sext]
    show wrap32 (wrap32 _ + wrap32 _) = _
    rw [wrap32_add]

theorem dot_int32 (A : List U8) (B : List I8) (N K i j : Nat) :
    dot int32 (A.map zext32) (B.map sext32) N K i j = wrap32 (exactDot A B N K i j) :=
  accum_int32 A B N K i j K

theorem product_bounds (a : U8) (b : I8) :
    -32640 ≤ zext32 a * sext32 b ∧ zext32 a * sext32 b ≤ 32640 := by
  obtain ⟨ha0, ha1⟩ := zext32_bounds a
  obtain ⟨hb0, hb1⟩ := sext32_bounds b
  constructor <;> nlinarith

/-- The exact partial sums of the widened products grow by at most `255 * 128` per term. -/
theorem psum_bounds (A : List U8) (B : List I8) (N K i j n : Nat) :
    -(32640 * (n : Int)) ≤ ∑ k in Finset.range n,
        zext32 (A.getD (i * K + k) 0) * sext32 (B.getD (k * N + j) 0) ∧
    ∑ k in Finset.range n,
        zext32 (A.getD (i * K + k) 0) * sext32 (B.getD (k * N + j) 0) ≤ 32640 * (n : Int) := by
  induction n with
  | zero => simp
  | succ n ih =>
    rw [Finset.sum_range_succ]
    have := product_bounds (A.getD (i * K + n) 0) (B.getD (n * N + j) 0)
    push_cast
    omega

theorem getD_map_zext_checked (A : List U8) (idx : Nat) :
    (A.map fun a => some (zext32 a)).getD idx int32Checked.zero = some (zext32 (A.getD idx 0)) := by
  simp only [List.getD_eq_getElem?_getD, List.getElem?_map]
  cases A[idx]? <;> rfl

theorem getD_map_sext_checked (B : List I8) (idx : Nat) :
    (B.map fun b => some (sext32 b)).getD idx int32Checked.zero = some (sext32 (B.getD idx 0)) := by
  simp only [List.getD_eq_getElem?_getD, List.getElem?_map]
  cases B[idx]? <;> rfl

/-- Overflow-tracking accumulation of up to `65793` widened products never leaves the
signed 32-bit range: every partial sum is `some` of the exact sum. -/
theorem accum_checked (A : List U8) (B : List I8) (N K i j n : Nat)
    (hn : 32640 * n ≤ 2147483647) :
    accum int32Checked (A.map fun a => some (zext32 a)) (B.map fun b => some (sext32 b))
        N K i j int32Checked.zero 0 n
      = some (∑ k in Finset.range n,
          zext32 (A.getD (i * K + k) 0) * sext32 (B.getD (k * N + j) 0)) := by
  induction n with
  | zero => simp [accum_self, int32Checked]
  | succ n ih =>
    rw [accum_succ _ _ _ _ _ _ _ _ 0 n (Nat.zero_le n), ih (by omega), Finset.sum_range_succ]
    simp only [term, getD_map_zext_checked, getD_map_sext_checked]
    have hp := product_bounds (A.getD (i * K + n) 0) (B.getD (n * N + j) 0)
    have hs := psum_bounds A B N K i j n
    have h1 : inRange32 (zext32 (A.getD (i * K + n) 0) * sext32 (B.getD (n * N + j) 0))
        = true := by
      simp only [inRange32, Bool.and_eq_true, decide_eq_true_eq]
      omega
    have h2 : inRange32 ((∑ k in Finset.range n,
          zext32 (A.getD (i * K + k) 0) * sext32 (B.getD (k * N + j) 0)) +
        zext32 (A.getD (i * K + n) 0) * sext32 (B.getD (n * N + j) 0)) = true := by
      simp only [inRange32, Bool.and_eq_true, decide_eq_true_eq]
      omega
    simp only [int32Checked, h1, h2, if_true]

theorem dot_checked (A : List U8) (B : List I8) (N K i j : Nat)
    (hK : 32640 * K ≤ 2147483647) :
    dot int32Checked (A.map fun a => some (zext32 a)) (B.map fun b => some (sext32 b)) N K i j
      = some (exactDot A B N K i j) :=
  accum_checked A B N K i j K hK

/-! ## Claims -/

/-- C6: on the target workload `M = 16`, `K = 50240`, `N = 16`, for all byte operands, the
kernel run with overflow tracking returns every accumulator as `some` of the exact
integer dot product, so no product and no intermediate accumulator value left the signed
32-bit range; the kernel with wrapping arithmetic returns the same exact values; every
product is within `255 * 128` and every partial sum within `255 * 128 * 50240 =
1639833600 < 2^31` in absolute value. -/
theorem matmul_amadeus_target_no_overflow (A : List U8) (B : List I8) (C : List Int)
    (Cc : List (Option Int))
    (hA : A.length = 16 * 50240) (hB : B.length = 50240 * 16)
    (hC : C.length = 16 * 16) (hCc : Cc.length = 16 * 16) :
    (∃ R, matmul_amadeus_checked A B Cc 16 50240 16 = some R ∧
      ∀ i j, i < 16 → j < 16 →
        R[i * 16 + j]? = some (some (∑ k in Finset.range 50240,
          zext32 (A.getD (i * 50240 + k) 0) * sext32 (B.getD (k * 16 + j) 0)))) ∧
    (∃ R, matmul_amadeus A B C 16 50240 16 = some R ∧
      ∀ i j, i < 16 → j < 16 →
        R[i * 16 + j]? = some (∑ k in Finset.range 50240,
          zext32 (A.getD (i * 50240 + k) 0) * sext32 (B.getD (k * 16 + j) 0))) ∧
    (∀ (a : U8) (b : I8), -32640 ≤ zext32 a * sext32 b ∧ zext32 a * sext32 b ≤ 32640) ∧
    (∀ i j n, n ≤ 50240 →
      -1639833600 ≤ ∑ k in Finset.range n,
          zext32 (A.getD (i * 50240 + k) 0) * sext32 (B.getD (k * 16 + j) 0) ∧
      ∑ k in Finset.range n,
          zext32 (A.getD (i * 50240 + k) 0) * sext32 (B.getD (k * 16 + j) 0) ≤ 1639833600 ∧
      (1639833600 : Int) < 2 ^ 31) := by
  refine ⟨⟨product int32Checked (A.map fun a => some (zext32 a))
      (B.map fun b => some (sext32 b)) 16 16 50240, ?_, ?_⟩,
    ⟨product int32 (A.map zext32) (B.map sext32) 16 16 50240, ?_, ?_⟩, product_bounds, ?_⟩
  · unfold matmul_amadeus_checked
    rw [matmul_amadeus_with_eq]
    exact matmul_optimized_eq int32Checked _ _ Cc (by simp [hA]) (by simp [hB]) hCc
  · intro i j hi hj
    rw [getElem?_product _ _ _ hi hj, dot_checked A B 16 50240 i j (by norm_num)]
    rfl
  · unfold matmul_amadeus
    rw [matmul_amadeus_with_eq]
    exact matmul_optimized_eq int32 _ _ C (by simp [hA]) (by simp [hB]) hC
  · intro i j hi hj
    rw [getElem?_product _ _ _ hi hj, dot_int32]
    have hs := psum_bounds A B 16 50240 i j 50240
    rw [wrap32_of_inRange]
    · rfl
    · simp only [inRange32, Bool.and_eq_true, decide_eq_true_eq, exactDot]
      push_cast at hs
      omega
  · intro i j n hn
    have hs := psum_bounds A B 16 50240 i j n
    refine ⟨?_, ?_, by norm_num⟩ <;> omega

/-- Witness of C6 at the extreme operands: every `A` byte 255, every `B` byte -128. -/
theorem matmul_amadeus_target_no_overflow_witness :
    (List.replicate (16 * 50240) (255 : U8)).length = 16 * 50240 ∧
    (List.replicate (50240 * 16) (i8 (-128))).length = 50240 * 16 ∧
    (List.replicate (16 * 16) (7 : Int)).length = 16 * 16 ∧
    (List.replicate (16 * 16) (none : Option Int)).length = 16 * 16 ∧
    ∃ R, matmul_amadeus_checked (List.replicate (16 * 50240) 255)
        (List.replicate (50240 * 16) (i8 (-128))) (List.replicate (16 * 16) none)
        16 50240 16 = some R ∧
      ∀ i j, i < 16 → j < 16 →
        R[i * 16 + j]? = some (some (∑ k in Finset.range 50240,
          zext32 ((List.replicate (16 * 50240) (255 : U8)).getD (i * 50240 + k) 0) *
          sext32 ((List.replicate (50240 * 16) (i8 (-128))).getD (k * 16 + j) 0))) :=
  ⟨List.length_replicate _ _, List.length_replicate _ _, List.length_replicate _ _,
    List.length_replicate _ _,
    (matmul_amadeus_target_no_overflow (List.replicate (16 * 50240) 255)
      (List.replicate (50240 * 16) (i8 (-128))) (List.replicate (16 * 16) 7)
      (List.replicate (16 * 16) none)
      (List.length_replicate _ _) (List.length_replicate _ _) (List.length_replicate _ _)
      (List.length_replicate _ _)).1⟩

/-- The result of `loop` does not depend on the budget once the budget suffices. -/
theorem loop_fuel_irrel {σ : Type} (cond : Nat → Bool) (step : Nat) (body : Nat → σ → Option σ)
    (hstep : 0 < step) (hi : Nat) (hc : ∀ x, cond x = true → x < hi) :
    ∀ (f1 f2 i : Nat) (s : σ), 0 < f1 → hi < i + f1 → 0 < f2 → hi < i + f2 →
      loop cond step body f1 i s = loop cond step body f2 i s := by
  intro f1
  induction f1 with
  | zero => intro f2 i s h; omega
  | succ n ih =>
    intro f2 i s _ h1 h2 h3
    cases f2 with
    | zero => omega
    | succ m =>
      unfold loop
      by_cases hci : cond i = true
      · have := hc i hci
        simp only [hci, if_true]
        cases body i s with
        | none => rfl
        | some s' => exact ih m (i + step) s' (by omega) (by omega) (by omega) (by omega)
      · have hf : cond i = false := by simpa using hci
        simp only [hf]
        rfl

/-- One iteration of a unit-step `forLoop` peeled off the front. -/
theorem forLoop_step {σ : Type} (lo hi : Nat) (body : Nat → σ → Option σ) (s : σ)
    (h : lo < hi) :
    forLoop lo hi 1 body s = (body lo s).bind fun s' => forLoop (lo + 1) hi 1 body s' := by
  unfold forLoop
  have hd : decide (lo < hi) = true := by simpa using h
  rw [loop]
  simp only [hd, if_true]
  cases body lo s with
  | none => rfl
  | some s' =>
    simp only [Option.bind]
    rw [loop_fuel_irrel (fun i => decide (i < hi)) 1 body (by omega) hi
      (fun x hx => by simpa using hx) hi (hi + 1) (lo + 1) s' (by omega) (by omega)
      (by omega) (by omega)]

/-- Four iterations of a unit-step `forLoop` peeled off the front. -/
theorem forLoop_step4 {σ : Type} (lo hi : Nat) (body : Nat → σ → Option σ) (s : σ)
    (h : lo + 4 ≤ hi) :
    forLoop lo hi 1 body s
      = ((((body lo s).bind (body (lo + 1))).bind (body (lo + 2))).bind (body (lo + 3))).bind
          fun s' => forLoop (lo + 4) hi 1 body s' := by
  rw [forLoop_step lo hi body s (by omega)]
  cases body lo s with
  | none => rfl
  | some s1 =>
    simp only [Option.bind]
    rw [forLoop_step (lo + 1) hi body s1 (by omega)]
    cases body (lo + 1) s1 with
    | none => rfl
    | some s2 =>
      simp only [Option.bind]
      rw [forLoop_step (lo + 1 + 1) hi body s2 (by omega)]
      cases body (lo + 2) s2 with
      | none => rfl
      | some s3 =>
        simp only [Option.bind]
        rw [forLoop_step (lo + 1 + 1 + 1) hi body s3 (by omega)]
        cases body (lo + 3) s3 with
        | none => rfl
        | some s4 => rfl

/-- A loop unrolled four times and followed by its remainder loop is the plain loop. -/
theorem unroll4_eq {σ : Type} (hi : Nat) (body : Nat → σ → Option σ) :
    ∀ (fuel j : Nat) (s : σ), 0 < fuel → hi < j + fuel →
      (loop (fun j => decide (j + 4 ≤ hi)) 4
          (fun j s => (((body j s).bind (body (j + 1))).bind (body (j + 2))).bind (body (j + 3)))
          fuel j s).bind (fun r => forLoop r.1 hi 1 body r.2)
        = forLoop j hi 1 body s := by
  intro fuel
  induction fuel with
  | zero => intro j s h; omega
  | succ n ih =>
    intro j s _ hfuel
    rw [loop]
    by_cases hj : j + 4 ≤ hi
    · have hd : decide (j + 4 ≤ hi) = true := by simpa using hj
      simp only [hd, if_true]
      rw [forLoop_step4 j hi body s hj]
      cases (((body j s).bind (body (j + 1))).bind (body (j + 2))).bind (body (j + 3)) with
      | none => rfl
      | some s' =>
        simp only [Option.bind]
        exact ih (j + 4) s' (by omega) (by omega)
    · have hd : decide (j + 4 ≤ hi) = false := by simpa using hj
      simp only [hd]
      rfl

/-- The counter an unrolled loop ends with. -/
theorem unroll4_counter {σ : Type} (hi : Nat) (body4 : Nat → σ → Option σ) :
    ∀ (fuel j : Nat) (s : σ) (r : Nat × σ),
      loop (fun j => decide (j + 4 ≤ hi)) 4 body4 fuel j s = some r → j ≤ hi →
      r.1 = j + 4 * ((hi - j) / 4) := by
  intro fuel
  induction fuel with
  | zero => intro j s r h; simp [loop] at h
  | succ n ih =>
    intro j s r h hle
    rw [loop] at h
    by_cases hj : j + 4 ≤ hi
    · have hd : decide (j + 4 ≤ hi) = true := by simpa using hj
      simp only [hd, if_true] at h
      cases hb : body4 j s with
      | none => simp [hb] at h
      | some s' =>
        simp only [hb] at h
        have := ih (j + 4) s' r h (by omega)
        omega
    · have hd : decide (j + 4 ≤ hi) = false := by simpa using hj
      simp only [hd] at h
      cases h
      simp only
      omega

theorem mac4_unfold {α : Type} (E : Elem α) (B : List α) (a : α) (N i k : Nat) :
    mac4 E B a N i k = fun j s =>
      ((((fun j => mac E B a (i * N + j) (k * N + j)) j s).bind
        ((fun j => mac E B a (i * N + j) (k * N + j)) (j + 1))).bind
        ((fun j => mac E B a (i * N + j) (k * N + j)) (j + 2))).bind
        ((fun j => mac E B a (i * N + j) (k * N + j)) (j + 3)) := by
  funext j s
  simp only [mac4, Nat.add_assoc]

theorem amadeus_mac4_unfold {γ : Type} (E : Elem γ) (wb : I8 → γ) (B : List I8) (a : γ)
    (N i k : Nat) :
    amadeus_mac4 E wb B a N i k = fun j s =>
      ((((fun j => amadeus_mac E wb B a (i * N + j) (k * N + j)) j s).bind
        ((fun j => amadeus_mac E wb B a (i * N + j) (k * N + j)) (j + 1))).bind
        ((fun j => amadeus_mac E wb B a (i * N + j) (k * N + j)) (j + 2))).bind
        ((fun j => amadeus_mac E wb B a (i * N + j) (k * N + j)) (j + 3)) := by
  funext j s
  simp only [amadeus_mac4, Nat.add_assoc]

/-- C15: the 4-wide unrolled j-loop followed by the remainder loop is the plain loop
`for (j = j0; j < j_max; ++j) C[i*N+j] += a_ik * B[k*N+j]`, in `matmul_optimized` and in
`matmul_amadeus`, for all buffers (faults included); the remainder loop starts
`(j_max - j0) mod 4` below `j_max`; and on buffers in bounds the two loops return, having
applied one multiply-accumulate to each cell `(i, j)` with `j0 ≤ j < j_max` and changed no
other cell. -/
theorem unrolled_jloop_is_plain_loop {α γ : Type} (E : Elem α) (B C : List α) (a : α)
    (Ea : Elem γ) (wb : I8 → γ) (Bq : List I8) (Cq : List γ) (aq : γ)
    (M N K i k j0 j_max : Nat) :
    jloop E B a N i k j0 j_max C
      = forLoop j0 j_max 1 (fun j => mac E B a (i * N + j) (k * N + j)) C ∧
    amadeus_jloop Ea wb Bq aq N i k j0 j_max Cq
      = forLoop j0 j_max 1 (fun j => amadeus_mac Ea wb Bq aq (i * N + j) (k * N + j)) Cq ∧
    (j0 ≤ j_max → ∀ r,
      loop (fun j => decide (j + 4 ≤ j_max)) 4 (mac4 E B a N i k) (j_max + 1) j0 C = some r →
      r.1 = j0 + 4 * ((j_max - j0) / 4) ∧ j_max - r.1 = (j_max - j0) % 4) ∧
    (K * N ≤ B.length → C.length = M * N → i < M → k < K → j0 ≤ j_max → j_max ≤ N →
      ∃ R, jloop E B a N i k j0 j_max C = some R ∧ R.length = C.length ∧
        ∀ i' j', j' < N →
          R[i' * N + j']? =
            if i' = i ∧ j0 ≤ j' ∧ j' < j_max
            then (C[i' * N + j']?).map fun c => E.add c (E.mul a (B.getD (k * N + j') E.zero))
            else C[i' * N + j']?) := by
  refine ⟨?_, ?_, ?_, ?_⟩
  · unfold jloop
    rw [mac4_unfold]
    exact unroll4_eq j_max (fun j => mac E B a (i * N + j) (k * N + j)) (j_max + 1) j0 C
      (by omega) (by omega)
  · unfold amadeus_jloop
    rw [amadeus_mac4_unfold]
    exact unroll4_eq j_max (fun j => amadeus_mac Ea wb Bq aq (i * N + j) (k * N + j))
      (j_max + 1) j0 Cq (by omega) (by omega)
  · intro hle r hr
    have h := unroll4_counter j_max (mac4 E B a N i k) (j_max + 1) j0 C r hr hle
    refine ⟨h, ?_⟩
    omega
  · intro hB hC hi hk h0 h1
    refine ⟨_, jloop_eq E B C a hB hC hi hk h0 h1, length_cellwise _ _ _, ?_⟩
    intro i' j' hj'
    rw [getElem?_cellwise _ _ hj']
    split_ifs
    · rfl
    · cases C[i' * N + j']? <;> rfl

/-- Witness of C15: seven columns are covered by one unrolled iteration and a remainder
of three. -/
theorem unrolled_jloop_is_plain_loop_witness :
    (0 : Nat) ≤ 7 ∧
    loop (fun j => decide (j + 4 ≤ 7)) 4 (mac4 int32 [1, 2, 3, 4, 5, 6, 7] 10 7 0 0) (7 + 1) 0
      [0, 0, 0, 0, 0, 0, 0] = some (4, [10, 20, 30, 40, 0, 0, 0]) ∧
    jloop int32 [1, 2, 3, 4, 5, 6, 7] 10 7 0 0 0 7 [0, 0, 0, 0, 0, 0, 0]
      = some [10, 20, 30, 40, 50, 60, 70] ∧
    ((4, [10, 20, 30, 40, 0, 0, 0]) : Nat × List Int).1 = 0 + 4 * ((7 - 0) / 4) ∧
    7 - ((4, [10, 20, 30, 40, 0, 0, 0]) : Nat × List Int).1 = (7 - 0) % 4 :=
  ⟨by decide, rfl, rfl,
    (unrolled_jloop_is_plain_loop int32 [1, 2, 3, 4, 5, 6, 7] [0, 0, 0, 0, 0, 0, 0] 10
      int32 sext32 [] [] 0 1 7 1 0 0 0 7).2.2.1 (by decide) (4, [10, 20, 30, 40, 0, 0, 0]) rfl⟩

/-- C14: on buffers of exactly `M*K`, `K*N` and `M*N` elements `matmul_optimized` and
`matmul_amadeus` return without a fault, that is, no bounds-checked read or write of the
run is out of range; and the indices of the unrolled body and of the remainder loop are
in range: `i*K+k < M*K`, `k*N+j+3 < K*N`, `i*N+j+3 < M*N` whenever `j + 4 ≤ N`, and
`k*N+j < K*N`, `i*N+j < M*N` whenever `j < N`. -/
theorem kernels_stay_in_bounds {α : Type} (E : Elem α) (A B C : List α) (Aq : List U8)
    (Bq : List I8) (Cq : List Int) (M N K : Nat)
    (hA : A.length = M * K) (hB : B.length = K * N) (hC : C.length = M * N)
    (hAq : Aq.length = M * K) (hBq : Bq.length = K * N) (hCq : Cq.length = M * N) :
    (matmul_optimized E A B C M N K).isSome = true ∧
    (matmul_amadeus Aq Bq Cq M K N).isSome = true ∧
    (∀ i k j, i < M → k < K → j + 4 ≤ N →
      i * K + k < A.length ∧ k * N + j + 3 < B.length ∧ i * N + j + 3 < C.length) ∧
    (∀ i k j, i < M → k < K → j < N →
      i * K + k < A.length ∧ k * N + j < B.length ∧ i * N + j < C.length) := by
  refine ⟨?_, ?_, ?_, ?_⟩
  · rw [matmul_optimized_eq E A B C (le_of_eq hA.symm) (le_of_eq hB.symm) hC]
    rfl
  · unfold matmul_amadeus
    rw [matmul_amadeus_with_eq, matmul_optimized_eq int32 _ _ Cq (by simp [hAq])
      (by simp [hBq]) hCq]
    rfl
  · intro i k j hi hk hj
    have h1 := idx_lt hi hk
    have h2 := idx_lt hk (by omega : j + 3 < N)
    have h3 := idx_lt hi (by omega : j + 3 < N)
    rw [hA, hB, hC]
    omega
  · intro i k j hi hk hj
    have h1 := idx_lt hi hk
    have h2 := idx_lt hk hj
    have h3 := idx_lt hi hj
    rw [hA, hB, hC]
    omega

/-- Witness of C14 on the 2×3 by 3×2 example; with one element of `A` missing the same
call faults. -/
theorem kernels_stay_in_bounds_witness :
    ([1, 2, 3, 4, 5, 6] : List Int).length = 2 * 3 ∧
    ([1, -1, 2, -2, 3, -3] : List Int).length = 3 * 2 ∧
    ([7, 7, 7, 7] : List Int).length = 2 * 2 ∧
    ([1, 2, 3, 4, 5, 6] : List U8).length = 2 * 3 ∧
    ([i8 1, i8 (-1), i8 2, i8 (-2), i8 3, i8 (-3)] : List I8).length = 3 * 2 ∧
    matmul_optimized int32 [1, 2, 3, 4, 5] [1, -1, 2, -2, 3, -3] [7, 7, 7, 7] 2 2 3 = none ∧
    (matmul_optimized int32 [1, 2, 3, 4, 5, 6] [1, -1, 2, -2, 3, -3] [7, 7, 7, 7] 2 2 3).isSome
      = true ∧
    (matmul_amadeus [1, 2, 3, 4, 5, 6] [i8 1, i8 (-1), i8 2, i8 (-2), i8 3, i8 (-3)]
      [7, 7, 7, 7] 2 3 2).isSome = true :=
  ⟨rfl, rfl, rfl, rfl, rfl, rfl,
    (kernels_stay_in_bounds int32 [1, 2, 3, 4, 5, 6] [1, -1, 2, -2, 3, -3] [7, 7, 7, 7]
      [1, 2, 3, 4, 5, 6] [i8 1, i8 (-1), i8 2, i8 (-2), i8 3, i8 (-3)] [7, 7, 7, 7] 2 2 3
      rfl rfl rfl rfl rfl rfl).1,
    (kernels_stay_in_bounds int32 [1, 2, 3, 4, 5, 6] [1, -1, 2, -2, 3, -3] [7, 7, 7, 7]
      [1, 2, 3, 4, 5, 6] [i8 1, i8 (-1), i8 2, i8 (-2), i8 3, i8 (-3)] [7, 7, 7, 7] 2 2 3
      rfl rfl rfl rfl rfl rfl).2.1⟩

/-! ## Tiles -/

end TurboMul
